import Mathlib

/-!
Verification of the satoshi.money price service core.

Shallow embedding of `src/priceConversion.ts` and the `Cache` class of
`src/index.ts`.

Conventions of the embedding:
* A JavaScript `Date` is represented by its `getTime()` value, an integer
  (`ℤ`, milliseconds since the epoch).  All comparisons in the source are
  comparisons of these numbers.
* JavaScript numbers are represented by `ℚ` wherever the source only adds,
  subtracts, multiplies or divides by a provably nonzero quantity.  The one
  division that can hit a zero divisor — the final cross-rate division — is
  modelled by `jsDiv`, which returns a `JsNum`: either a finite rational or
  one of the IEEE special values `Infinity`, `-Infinity`, `NaN` that
  JavaScript division produces on a zero divisor.
* `Array.prototype.sort()` with no comparator sorts by comparing the
  elements' decimal string representations (UTF-16 code-unit order); this is
  modelled by `jsNumStr`/`jsStrLt` and a stable sort.
* A JavaScript `Map` is modelled by an association list in insertion order:
  `set` of a present key overwrites in place, `set` of an absent key appends,
  iteration follows the list.
-/

/-- Model of `BtcPricePoint` from `src/index.ts`: `{priceSats: number; date: Date}`. -/
structure BtcPricePoint where
  priceSats : ℚ
  date : ℤ
deriving DecidableEq, Repr

/-- The value of a JavaScript number that may be an IEEE special value:
either a finite value (modelled exactly by a rational) or `Infinity`,
`-Infinity`, `NaN`. -/
inductive JsNum where
  | num (q : ℚ)
  | posInf
  | negInf
  | nan
deriving DecidableEq, Repr

/-- Is this JavaScript number finite (neither an infinity nor `NaN`)? -/
def JsNum.isFinite : JsNum → Bool
  | .num _ => true
  | _ => false

/-- JavaScript division `a / b` of finite numbers: finite for `b ≠ 0`;
for `b = 0` it yields `Infinity`, `-Infinity` or `NaN` according to the
sign of `a`. -/
def jsDiv (a b : ℚ) : JsNum :=
  if b = 0 then
    if 0 < a then .posInf else if a < 0 then .negInf else .nan
  else
    .num (a / b)

/-- Model of `PricePoint` from `src/index.ts`: `{price: number; date: Date}`.  The
ratio is the result of a JavaScript division, hence a `JsNum`. -/
structure PricePoint where
  price : JsNum
  date : ℤ
deriving DecidableEq, Repr

/-- Embedding of `interpolatePrice` from `src/priceConversion.ts`.

```
const exactMatch = data.find(d => d.date.getTime() === targetTime.getTime());
if (exactMatch) { return exactMatch.priceSats; }
const closestBefore = data.filter(d => d.date < targetTime).pop();
const closestAfter = data.find(d => d.date > targetTime);
...
```
`filter(...).pop()` is the last element, in input order, whose date is below
the target; `find` is the first element, in input order, whose date is above
it.  `null` is `Option.none`. -/
def interpolatePrice (data : List BtcPricePoint) (targetTime : ℤ) : Option ℚ :=
  match data.find? (fun d => decide (d.date = targetTime)) with
  | some exactMatch => some exactMatch.priceSats
  | none =>
    match (data.filter (fun d => decide (d.date < targetTime))).getLast?,
          data.find? (fun d => decide (targetTime < d.date)) with
    | some closestBefore, some closestAfter =>
      some (closestBefore.priceSats +
        (targetTime - closestBefore.date) / (closestAfter.date - closestBefore.date) *
          (closestAfter.priceSats - closestBefore.priceSats))
    | some closestBefore, none => some closestBefore.priceSats
    | none, some closestAfter => some closestAfter.priceSats
    | none, none => none

/-- The decimal string `String(i)` JavaScript produces for an integer
(character list). -/
def jsNumStr (i : ℤ) : List Char :=
  if i < 0 then '-' :: Nat.toDigits 10 i.natAbs else Nat.toDigits 10 i.natAbs

/-- Strict UTF-16 code-unit lexicographic order on strings, the order the
default `Array.prototype.sort()` comparator induces. -/
def jsStrLt : List Char → List Char → Bool
  | [], [] => false
  | [], _ :: _ => true
  | _ :: _, [] => false
  | a :: as, b :: bs =>
    if a.val < b.val then true else if b.val < a.val then false else jsStrLt as bs

/-- The total preorder the default (comparator-less) `sort()` applies to
numbers: compare their decimal strings lexicographically. -/
def jsDefaultLe (a b : ℤ) : Bool := !(jsStrLt (jsNumStr b) (jsNumStr a))

/-- Stable insertion of `a` into `l` with respect to `le`: `a` goes in
front of the first element it is `le`-below-or-tied-after. -/
def sortInsert (le : ℤ → ℤ → Bool) (a : ℤ) : List ℤ → List ℤ
  | [] => [a]
  | b :: l => if le a b then a :: b :: l else b :: sortInsert le a l

/-- Stable sort with respect to `le`; models `Array.prototype.sort`, whose
result on a consistent comparator is the stable `le`-sorted permutation. -/
def jsSort (le : ℤ → ℤ → Bool) : List ℤ → List ℤ
  | [] => []
  | a :: l => sortInsert le a (jsSort le l)

/-- Embedding of `getAllDates` from `src/priceConversion.ts`: collect the dates of both
series into a `Set` (first-occurrence insertion order, duplicates dropped),
then `Array.from(set).sort()` — the default sort, which compares the
timestamps as decimal strings. -/
def getAllDates (currency1 currency2 : List BtcPricePoint) : List ℤ :=
  let dateSet := ((currency1 ++ currency2).map (fun item => item.date)).foldl
    (fun acc t => if acc.contains t then acc else acc ++ [t]) []
  jsSort jsDefaultLe dateSet

/-- Embedding of `computeDirectExchangeRate` from `src/priceConversion.ts`: for each union
date push `{price: p1 / p2, date}` when both interpolations succeed and
`null` otherwise, then filter the `null`s out. -/
def computeDirectExchangeRate (currency1 currency2 : List BtcPricePoint) :
    List PricePoint :=
  let allDates := getAllDates currency1 currency2
  let results : List (Option PricePoint) := allDates.map (fun date =>
    match interpolatePrice currency1 date, interpolatePrice currency2 date with
    | some p1, some p2 => some { price := jsDiv p1 p2, date := date }
    | _, _ => none)
  results.filterMap id

/-! Value view of the `Cache` class of `src/index.ts`.

`CacheData` models the observable contents of the private
`Map<string, BtcPricePoint[]>`: an association list in `Map` insertion
order, each entry holding the contents of that symbol's array. -/

/-- The contents of the cache's `Map<string, BtcPricePoint[]>`. -/
abbrev CacheData := List (String × List BtcPricePoint)

/-- The TTL constant: `Cache.ttlMillis = 24 * 60 * 60 * 1000`. -/
def ttlMillis : ℤ := 24 * 60 * 60 * 1000

/-- JavaScript `Map.prototype.set`: overwrite in place if the key is
present, append at the end otherwise. -/
def mapSet {α : Type} : List (String × α) → String → α → List (String × α)
  | [], k, v => [(k, v)]
  | (k', v') :: rest, k, v =>
    if k' = k then (k, v) :: rest else (k', v') :: mapSet rest k v

/-- The sorted-position `splice` of `Cache.addPricePoint`: the insertion
index is the first `i` with `prices[i].date > price.date` (the scan breaks
there), so the point lands after the longest prefix of dates `≤` its own. -/
def spliceAsc (prices : List BtcPricePoint) (price : BtcPricePoint) :
    List BtcPricePoint :=
  prices.takeWhile (fun q => !decide (price.date < q.date)) ++
    price :: prices.dropWhile (fun q => !decide (price.date < q.date))

/-- Embedding of `Cache.addPricePoint` from `src/index.ts`.  `now` is the clock value the
method reads with `new Date()`.  Rejects (returns the cache unchanged) a
point older than the TTL or one whose date is already present for the
symbol; otherwise splices it into ascending-date position. -/
def addPricePoint (now : ℤ) (symbol : String) (price : BtcPricePoint)
    (cache : CacheData) : CacheData :=
  if ttlMillis < now - price.date then cache
  else
    match cache.lookup symbol with
    | none => mapSet cache symbol [price]
    | some prices =>
      if (prices.find? (fun p => decide (p.date = price.date))).isSome then cache
      else mapSet cache symbol (spliceAsc prices price)

/-- Embedding of `Cache.get` from `src/index.ts` (the observable contents it exposes). -/
def cacheGet (cache : CacheData) (symbol : String) :
    Option (List BtcPricePoint) :=
  cache.lookup symbol

/-- The filter predicate of `Cache.cleanup`:
`now.getTime() - price.date.getTime() <= this.ttlMillis`. -/
def ttlKeep (now : ℤ) (price : BtcPricePoint) : Bool :=
  decide (now - price.date ≤ ttlMillis)

/-- One symbol's step of `Cache.cleanup`: keep the points with
`now - date ≤ ttlMillis` (`this.cache.set`), drop the symbol when nothing
remains (`this.cache.delete`). -/
def cleanupEntry (now : ℤ) (e : String × List BtcPricePoint) :
    Option (String × List BtcPricePoint) :=
  let filteredPrices := e.2.filter (ttlKeep now)
  if filteredPrices.isEmpty then none else some (e.1, filteredPrices)

/-- Embedding of `Cache.cleanup` from `src/index.ts`: the per-symbol sweep over the map in
iteration order. -/
def cleanup (now : ℤ) (cache : CacheData) : CacheData :=
  cache.filterMap (cleanupEntry now)

/-- One externally triggered cache mutation: an `addPricePoint` call or a
`cleanup` sweep, each reading the clock value it sees. -/
inductive CacheOp where
  | add (now : ℤ) (symbol : String) (price : BtcPricePoint)
  | clean (now : ℤ)

/-- Apply one mutation to the cache. -/
def applyOp (cache : CacheData) : CacheOp → CacheData
  | .add now symbol price => addPricePoint now symbol price cache
  | .clean now => cleanup now cache

/-- Run a sequence of mutations from the freshly constructed (empty)
cache. -/
def runOps (ops : List CacheOp) : CacheData := ops.foldl applyOp []

/-- The invariant the `Cache` maintains: every symbol's stored array is
nonempty and strictly ascending by date. -/
def CacheWF (cache : CacheData) : Prop :=
  ∀ e ∈ cache, e.2 ≠ [] ∧ e.2.Pairwise (fun x y => x.date < y.date)

/-! Reference view of the `Cache` class.

`Cache.get` returns the array object stored in the map, not a copy.  To
reason about aliasing, `CacheRef` makes array identity explicit: the map
binds each symbol to the index of its array in a heap of arrays.  A fresh
array literal (`[price]` in `addPricePoint`, the result of `filter` in
`cleanup`) allocates a new heap cell; `splice` mutates the existing cell in
place. -/

/-- The cache with array identity made explicit: `entries` is the `Map`
(symbol to array reference), `heap` the store of array objects, a reference
being an index into it. -/
structure CacheRef where
  entries : List (String × Nat)
  heap : List (List BtcPricePoint)
deriving DecidableEq, Repr

/-- The freshly constructed cache. -/
def CacheRef.empty : CacheRef := ⟨[], []⟩

/-- Read the array object a reference denotes. -/
def CacheRef.readArr (s : CacheRef) (r : Nat) : List BtcPricePoint :=
  s.heap.getD r []

/-- Embedding of `Cache.get` under the reference view: the reference to the symbol's
live array, not a copy of its contents. -/
def CacheRef.get (s : CacheRef) (symbol : String) : Option Nat :=
  s.entries.lookup symbol

/-- Embedding of `Cache.addPricePoint` under the reference view: a new symbol gets a
freshly allocated one-element array; an existing symbol's array is mutated
in place by `splice`, so every outstanding reference to it sees the new
contents. -/
def CacheRef.addPricePoint (now : ℤ) (symbol : String) (price : BtcPricePoint)
    (s : CacheRef) : CacheRef :=
  if ttlMillis < now - price.date then s
  else
    match s.entries.lookup symbol with
    | none =>
      { entries := mapSet s.entries symbol s.heap.length
        heap := s.heap ++ [[price]] }
    | some r =>
      let prices := s.readArr r
      if (prices.find? (fun p => decide (p.date = price.date))).isSome then s
      else { s with heap := s.heap.set r (spliceAsc prices price) }

/-- One symbol's step of `Cache.cleanup` under the reference view, reading
from the heap `srcHeap` as it stood when the sweep started: `filter`
allocates a new array and the map entry is rebound to it; dropping a symbol
touches no array. -/
def cleanupStep (srcHeap : List (List BtcPricePoint)) (now : ℤ)
    (acc : CacheRef) (e : String × Nat) : CacheRef :=
  let filteredPrices := (srcHeap.getD e.2 []).filter (ttlKeep now)
  if filteredPrices.isEmpty then acc
  else
    { entries := acc.entries ++ [(e.1, acc.heap.length)]
      heap := acc.heap ++ [filteredPrices] }

/-- Embedding of `Cache.cleanup` under the reference view: `filter` allocates a new
array for every surviving symbol and the map is rebound to it; no existing
array object is ever written. -/
def CacheRef.cleanup (now : ℤ) (s : CacheRef) : CacheRef :=
  s.entries.foldl (cleanupStep s.heap now) { entries := [], heap := s.heap }

/-! Read-through short-circuit of the `/priceInSats/:symbol` route. -/

/-- The cache short-circuit of the `/priceInSats/:symbol` handler in
`src/index.ts`: with a (truthy) `startDate` and a cached array for the
symbol whose first entry is dated strictly after `startDate`, the handler
answers from the cache — the cached array filtered to dates after
`startDate` — and skips the store query (`none` = fall through to the
store). -/
def priceInSatsCacheResponse (cache : CacheData) (symbol : String)
    (startDate : Option ℤ) : Option (List BtcPricePoint) :=
  match startDate, cacheGet cache symbol with
  | some d, some (p0 :: rest) =>
    if d < p0.date then
      some ((p0 :: rest).filter (fun price => decide (d < price.date)))
    else none
  | _, _ => none

/-! Helper lemmas and claim theorems. -/

theorem lookup_mem {α : Type} {c : List (String × α)} {k : String} {v : α}
    (h : c.lookup k = some v) : (k, v) ∈ c := by
  induction c with
  | nil => simp [List.lookup] at h
  | cons e rest ih =>
    obtain ⟨k', v'⟩ := e
    by_cases hk : k = k'
    · subst hk
      simp [List.lookup] at h
      cases h
      exact List.mem_cons_self _ _
    · have hbk : (k == k') = false := beq_eq_false_iff_ne.2 hk
      simp [List.lookup, hbk] at h
      exact List.mem_cons_of_mem _ (ih h)

theorem mem_mapSet {α : Type} {c : List (String × α)} {k : String} {v : α}
    {e : String × α} (h : e ∈ mapSet c k v) : e ∈ c ∨ e = (k, v) := by
  induction c with
  | nil =>
    simp [mapSet] at h
    exact Or.inr h
  | cons e' rest ih =>
    obtain ⟨k', v'⟩ := e'
    by_cases hk : k' = k
    · subst hk
      simp only [mapSet, if_pos rfl] at h
      rcases List.mem_cons.1 h with rfl | h
      · exact Or.inr rfl
      · exact Or.inl (List.mem_cons_of_mem _ h)
    · simp only [mapSet, if_neg hk] at h
      rcases List.mem_cons.1 h with rfl | h
      · exact Or.inl (List.mem_cons_self _ _)
      · rcases ih h with h | h
        · exact Or.inl (List.mem_cons_of_mem _ h)
        · exact Or.inr h

theorem filter_ttlKeep_idem (now : ℤ) (l : List BtcPricePoint) :
    (l.filter (ttlKeep now)).filter (ttlKeep now) = l.filter (ttlKeep now) := by
  rw [List.filter_filter]
  congr 1
  funext a
  rw [Bool.and_self]

theorem cleanupEntry_idem {now : ℤ} {e e' : String × List BtcPricePoint}
    (h : cleanupEntry now e = some e') : cleanupEntry now e' = some e' := by
  replace h :
      (if (e.2.filter (ttlKeep now)).isEmpty = true then none
        else some (e.1, e.2.filter (ttlKeep now))) = some e' := h
  by_cases hf : (e.2.filter (ttlKeep now)).isEmpty = true
  · rw [if_pos hf] at h
    cases h
  · rw [if_neg hf] at h
    cases h
    show (if ((e.2.filter (ttlKeep now)).filter (ttlKeep now)).isEmpty = true then none
        else some (e.1, (e.2.filter (ttlKeep now)).filter (ttlKeep now))) =
      some (e.1, e.2.filter (ttlKeep now))
    rw [filter_ttlKeep_idem, if_neg hf]

/-- C8: for every cache state and fixed clock value, running `cleanup`
twice gives the same state as running it once — `cleanup` is idempotent. -/
theorem C8_cleanup_idempotent (now : ℤ) (cache : CacheData) :
    cleanup now (cleanup now cache) = cleanup now cache := by
  induction cache with
  | nil => rfl
  | cons e rest ih =>
    unfold cleanup at ih ⊢
    rw [List.filterMap_cons]
    cases he : cleanupEntry now e with
    | none => exact ih
    | some e' =>
      rw [List.filterMap_cons, cleanupEntry_idem he, ih]

/-- C6: `addPricePoint` is a silent no-op, leaving the whole cache state
unchanged, when the point is older than the TTL (`now - date > ttl`) or a
point with the same date is already cached for the symbol — hence the
first-inserted sample at a timestamp is the one retained. -/
theorem C6_addPricePoint_silent_noop (now : ℤ) (symbol : String)
    (price : BtcPricePoint) (cache : CacheData)
    (h : ttlMillis < now - price.date ∨
      ∃ prices, cacheGet cache symbol = some prices ∧
        ∃ q ∈ prices, q.date = price.date) :
    addPricePoint now symbol price cache = cache := by
  rcases h with h | ⟨prices, hl, q, hq, hd⟩
  · simp [addPricePoint, h]
  · have hfind : (prices.find? (fun p => decide (p.date = price.date))).isSome := by
      rw [List.find?_isSome]
      exact ⟨q, hq, by simp [hd]⟩
    rw [cacheGet] at hl
    unfold addPricePoint
    split
    · rfl
    · rw [hl]
      show (if (prices.find? (fun p => decide (p.date = price.date))).isSome = true
          then cache else mapSet cache symbol (spliceAsc prices price)) = cache
      rw [if_pos hfind]

theorem C6_witness :
    addPricePoint 0 "ETH" ⟨2, 0⟩ [("ETH", [⟨1, 0⟩])] = [("ETH", [⟨1, 0⟩])] :=
  C6_addPricePoint_silent_noop 0 "ETH" ⟨2, 0⟩ [("ETH", [⟨1, 0⟩])]
    (Or.inr ⟨[⟨1, 0⟩], by decide, ⟨1, 0⟩, by decide, rfl⟩)

theorem pairwise_date_inj {s : List BtcPricePoint}
    (hs : s.Pairwise (fun a b => a.date < b.date)) :
    ∀ x ∈ s, ∀ y ∈ s, x.date = y.date → x = y := by
  induction s with
  | nil => intro x hx; cases hx
  | cons a l ih =>
    rcases List.pairwise_cons.1 hs with ⟨ha, hl⟩
    intro x hx y hy hxy
    cases List.mem_cons.1 hx with
    | inl h1 =>
      cases List.mem_cons.1 hy with
      | inl h2 => exact h1.trans h2.symm
      | inr h2 =>
        exact absurd ((congrArg BtcPricePoint.date h1).symm.trans hxy)
          (ne_of_lt (ha y h2))
    | inr h1 =>
      cases List.mem_cons.1 hy with
      | inl h2 =>
        exact absurd (hxy.trans (congrArg BtcPricePoint.date h2))
          (ne_of_gt (ha x h1))
      | inr h2 => exact ih hl x h1 y h2 hxy

theorem find?_exact_sorted {s : List BtcPricePoint} {t : ℤ} {d : BtcPricePoint}
    (hs : s.Pairwise (fun a b => a.date < b.date)) (hd : d ∈ s) (hdt : d.date = t) :
    s.find? (fun x => decide (x.date = t)) = some d := by
  have hsome : (s.find? (fun x => decide (x.date = t))).isSome :=
    List.find?_isSome.2 ⟨d, hd, by simp [hdt]⟩
  obtain ⟨d', hd'⟩ := Option.isSome_iff_exists.1 hsome
  have hmem := List.mem_of_find?_eq_some hd'
  have hp : d'.date = t := by simpa using List.find?_some hd'
  have hdd : d' = d := pairwise_date_inj hs d' hmem d hd (by rw [hp, hdt])
  rw [hd', hdd]

theorem getLast?_filter_sorted {t : ℤ} {b : BtcPricePoint} :
    ∀ {s : List BtcPricePoint}, s.Pairwise (fun x y => x.date < y.date) → b ∈ s →
      b.date < t → (∀ q ∈ s, q.date < t → q.date ≤ b.date) →
      (s.filter (fun d => decide (d.date < t))).getLast? = some b := by
  intro s
  induction s with
  | nil => intro _ hb; cases hb
  | cons a l ih =>
    intro hs hb hbt hmax
    rcases List.pairwise_cons.1 hs with ⟨ha, hl⟩
    rcases List.mem_cons.1 hb with rfl | hb'
    · have hfl : l.filter (fun d => decide (d.date < t)) = [] := by
        rw [List.filter_eq_nil_iff]
        intro q hq
        simp only [decide_eq_true_eq]
        intro hqt
        exact absurd (hmax q (List.mem_cons_of_mem _ hq) hqt) (not_le.2 (ha q hq))
      rw [List.filter_cons, if_pos (by simp [hbt]), hfl]
      rfl
    · have hab : a.date < b.date := ha b hb'
      have hat : a.date < t := hab.trans hbt
      have hrec := ih hl hb' hbt (fun q hq hqt => hmax q (List.mem_cons_of_mem _ hq) hqt)
      rw [List.filter_cons, if_pos (by simp [hat])]
      cases hx : l.filter (fun d => decide (d.date < t)) with
      | nil => rw [hx] at hrec; cases hrec
      | cons y ys =>
        rw [hx] at hrec
        rw [List.getLast?_cons_cons]
        exact hrec

theorem find?_after_sorted {t : ℤ} {a : BtcPricePoint} :
    ∀ {s : List BtcPricePoint}, s.Pairwise (fun x y => x.date < y.date) → a ∈ s →
      t < a.date → (∀ q ∈ s, t < q.date → a.date ≤ q.date) →
      s.find? (fun d => decide (t < d.date)) = some a := by
  intro s
  induction s with
  | nil => intro _ hmem; cases hmem
  | cons x l ih =>
    intro hs hmem hta hmin
    rcases List.pairwise_cons.1 hs with ⟨hx, hl⟩
    rcases List.mem_cons.1 hmem with rfl | hmem'
    · exact List.find?_cons_of_pos _ (by simp [hta])
    · have hxa : x.date < a.date := hx a hmem'
      have hxt : ¬ t < x.date := fun htx =>
        absurd (hmin x (List.mem_cons_self _ _) htx) (not_le.2 hxa)
      rw [List.find?_cons_of_neg _ (by simp [hxt])]
      exact ih hl hmem' hta (fun q hq hqt => hmin q (List.mem_cons_of_mem _ hq) hqt)

/-- C4: on a series sorted in strictly ascending timestamp order,
`interpolatePrice` implements the specified algorithm: exact match returns
the stored price; with the latest sample before `t` and the earliest sample
after `t` both present it returns
`before.price + (t - before.date)/(after.date - before.date) * (after.price - before.price)`;
with only one neighbour it returns that neighbour's price (flat
extrapolation); on the empty series it returns `none` (`NotAvailable`). -/
theorem C4_interpolate_sorted_spec (s : List BtcPricePoint) (t : ℤ)
    (hs : s.Pairwise (fun x y => x.date < y.date)) :
    (∀ d ∈ s, d.date = t → interpolatePrice s t = some d.priceSats) ∧
    (∀ b a, b ∈ s → b.date < t → (∀ q ∈ s, q.date < t → q.date ≤ b.date) →
      a ∈ s → t < a.date → (∀ q ∈ s, t < q.date → a.date ≤ q.date) →
      (∀ d ∈ s, d.date ≠ t) →
      interpolatePrice s t =
        some (b.priceSats + (t - b.date) / (a.date - b.date) *
          (a.priceSats - b.priceSats))) ∧
    (∀ b, b ∈ s → b.date < t → (∀ q ∈ s, q.date < t → q.date ≤ b.date) →
      (∀ d ∈ s, ¬ t < d.date) → (∀ d ∈ s, d.date ≠ t) →
      interpolatePrice s t = some b.priceSats) ∧
    (∀ a, a ∈ s → t < a.date → (∀ q ∈ s, t < q.date → a.date ≤ q.date) →
      (∀ d ∈ s, ¬ d.date < t) → (∀ d ∈ s, d.date ≠ t) →
      interpolatePrice s t = some a.priceSats) ∧
    (s = [] → interpolatePrice s t = none) := by
  refine ⟨?_, ?_, ?_, ?_, ?_⟩
  · intro d hd hdt
    unfold interpolatePrice
    rw [find?_exact_sorted hs hd hdt]
  · intro b a hb hbt hmax ha hta hmin hne
    have hex : s.find? (fun x => decide (x.date = t)) = none :=
      List.find?_eq_none.2 (fun x hx => by simp [hne x hx])
    unfold interpolatePrice
    rw [hex, getLast?_filter_sorted hs hb hbt hmax, find?_after_sorted hs ha hta hmin]
  · intro b hb hbt hmax hnoafter hne
    have hex : s.find? (fun x => decide (x.date = t)) = none :=
      List.find?_eq_none.2 (fun x hx => by simp [hne x hx])
    have hna : s.find? (fun d => decide (t < d.date)) = none :=
      List.find?_eq_none.2 (fun x hx => by simp [hnoafter x hx])
    unfold interpolatePrice
    rw [hex, getLast?_filter_sorted hs hb hbt hmax, hna]
  · intro a ha hta hmin hnobefore hne
    have hex : s.find? (fun x => decide (x.date = t)) = none :=
      List.find?_eq_none.2 (fun x hx => by simp [hne x hx])
    have hnb : s.filter (fun d => decide (d.date < t)) = [] :=
      List.filter_eq_nil_iff.2 (fun x hx => by simp [hnobefore x hx])
    unfold interpolatePrice
    rw [hex, hnb, List.getLast?_nil, find?_after_sorted hs ha hta hmin]
  · intro hnil
    subst hnil
    rfl

theorem C4_witness :
    interpolatePrice [⟨100, 0⟩, ⟨200, 10⟩] 5 =
      some (100 + ((5 : ℤ) - ((0 : ℤ) : ℚ)) / (((10 : ℤ) : ℚ) - ((0 : ℤ) : ℚ)) *
        (200 - 100)) :=
  (C4_interpolate_sorted_spec [⟨100, 0⟩, ⟨200, 10⟩] 5 (by decide)).2.1
    ⟨100, 0⟩ ⟨200, 10⟩ (by decide) (by decide) (by decide) (by decide) (by decide)
    (by decide) (by decide)

/-- C2: evaluation at the failing input.  With union timestamps `{2, 10}`
the comparator-less `sort()` compares `"10" < "2"` lexicographically, so
`computeDirectExchangeRate` returns its entries in descending numeric
timestamp order — not ascending as specified. -/
theorem C2_lexicographic_sort_order :
    (computeDirectExchangeRate [⟨1, 2⟩, ⟨3, 10⟩] [⟨1, 2⟩]).map PricePoint.date =
      [10, 2] := by decide

/-- C1 counterexample: a comparison series whose estimate at the union
timestamp 0 is exactly zero does not get that timestamp omitted —
`computeDirectExchangeRate` emits the entry with ratio `Infinity`. -/
theorem C1_counterexample :
    computeDirectExchangeRate [⟨1, 0⟩] [⟨0, 0⟩] = [⟨.posInf, 0⟩] := by decide

theorem interpolatePrice_isSome {s : List BtcPricePoint} (hs : s ≠ []) (t : ℤ) :
    (interpolatePrice s t).isSome = true := by
  unfold interpolatePrice
  cases hfind : s.find? (fun d => decide (d.date = t)) with
  | some d => rfl
  | none =>
    cases hb : (s.filter (fun d => decide (d.date < t))).getLast? with
    | some b => cases ha : s.find? (fun d => decide (t < d.date)) <;> rfl
    | none =>
      cases ha : s.find? (fun d => decide (t < d.date)) with
      | some a => rfl
      | none =>
        exfalso
        obtain ⟨d, hd⟩ := List.exists_mem_of_ne_nil s hs
        have h1 : ¬ d.date = t := by simpa using List.find?_eq_none.1 hfind d hd
        have h3 : ¬ t < d.date := by simpa using List.find?_eq_none.1 ha d hd
        have h2 : ¬ d.date < t := by
          intro hlt
          have hmem : d ∈ s.filter (fun x => decide (x.date < t)) :=
            List.mem_filter.2 ⟨hd, by simp [hlt]⟩
          exact List.ne_nil_of_mem hmem (List.getLast?_eq_none_iff.1 hb)
        omega

theorem computeDirectExchangeRate_eq_filterMap (c1 c2 : List BtcPricePoint) :
    computeDirectExchangeRate c1 c2 = (getAllDates c1 c2).filterMap
      (fun date =>
        match interpolatePrice c1 date, interpolatePrice c2 date with
        | some p1, some p2 => some { price := jsDiv p1 p2, date := date }
        | _, _ => none) := by
  unfold computeDirectExchangeRate
  rw [List.filterMap_map, Function.id_comp]

/-- C1 (amended): a zero comparison estimate does not cause omission — when
both input series are nonempty `computeDirectExchangeRate` emits one entry
per union timestamp, and an entry whose comparison estimate is exactly zero
carries a non-finite ratio (`Infinity`, `-Infinity` or `NaN`, the result of
the unguarded JavaScript division) rather than being dropped; omission
happens only when an estimate is `null`, i.e. a series is empty. -/
theorem C1_zero_comparison_not_omitted (c1 c2 : List BtcPricePoint)
    (h1 : c1 ≠ []) (h2 : c2 ≠ []) :
    (computeDirectExchangeRate c1 c2).map PricePoint.date = getAllDates c1 c2 ∧
    ∀ e ∈ computeDirectExchangeRate c1 c2,
      interpolatePrice c2 e.date = some 0 → e.price.isFinite = false := by
  rw [computeDirectExchangeRate_eq_filterMap]
  constructor
  · generalize getAllDates c1 c2 = ds
    induction ds with
    | nil => rfl
    | cons d rest ih =>
      obtain ⟨p1, hp1⟩ := Option.isSome_iff_exists.1 (interpolatePrice_isSome h1 d)
      obtain ⟨p2, hp2⟩ := Option.isSome_iff_exists.1 (interpolatePrice_isSome h2 d)
      rw [List.filterMap_cons]
      simp only [hp1, hp2]
      rw [List.map_cons, ih]
  · intro e he hz
    obtain ⟨d, hd, hde⟩ := List.mem_filterMap.1 he
    cases hp1 : interpolatePrice c1 d with
    | none =>
      rw [hp1] at hde
      cases hp2 : interpolatePrice c2 d <;> rw [hp2] at hde <;>
        exact Option.noConfusion hde
    | some p1 =>
      cases hp2 : interpolatePrice c2 d with
      | none =>
        rw [hp1, hp2] at hde
        exact Option.noConfusion hde
      | some p2 =>
        rw [hp1, hp2] at hde
        have he' : ({ price := jsDiv p1 p2, date := d } : PricePoint) = e :=
          Option.some.inj hde
        subst he'
        have hz' : interpolatePrice c2 d = some 0 := hz
        rw [hp2] at hz'
        have hp20 : p2 = 0 := Option.some.inj hz'
        subst hp20
        show (jsDiv p1 0).isFinite = false
        unfold jsDiv
        rw [if_pos rfl]
        split
        · rfl
        · split <;> rfl

theorem C1_witness :
    (computeDirectExchangeRate [⟨1, 0⟩] [⟨2, 0⟩]).map PricePoint.date =
        getAllDates [⟨1, 0⟩] [⟨2, 0⟩] ∧
      ∀ e ∈ computeDirectExchangeRate [⟨1, 0⟩] [⟨2, 0⟩],
        interpolatePrice [⟨2, 0⟩] e.date = some 0 → e.price.isFinite = false :=
  C1_zero_comparison_not_omitted [⟨1, 0⟩] [⟨2, 0⟩] (by decide) (by decide)

theorem crossRateExample_value :
    computeDirectExchangeRate [⟨10, 0⟩, ⟨30, 20⟩] [⟨5, 10⟩] =
      [⟨.num 2, 0⟩, ⟨.num 4, 10⟩, ⟨.num 6, 20⟩] := by
  have h : getAllDates [⟨10, 0⟩, ⟨30, 20⟩] [⟨5, 10⟩] = [0, 10, 20] := by decide
  norm_num [computeDirectExchangeRate, h, interpolatePrice, List.find?, List.filter,
    jsDiv, List.filterMap_cons]

/-- C5 (amended): for priced series `[(0,10),(20,30)]` and comparison
series `[(10,5)]` the output timestamps are `{0, 10, 20}`; at `t = 10` both
neighbours of the priced series exist, so its estimate is the linear
interpolation 20 (not a forward extrapolation), and the ratio is
`20 / 5 = 4`; the other ratios are `10 / 5 = 2` and `30 / 5 = 6`. -/
theorem C5_cross_rate_example :
    computeDirectExchangeRate [⟨10, 0⟩, ⟨30, 20⟩] [⟨5, 10⟩] =
      [⟨.num 2, 0⟩, ⟨.num 4, 10⟩, ⟨.num 6, 20⟩] :=
  crossRateExample_value

/-- C5 counterexample: the output entry at `t = 10` has ratio 4, not the
claimed 2. -/
theorem C5_counterexample :
    (computeDirectExchangeRate [⟨10, 0⟩, ⟨30, 20⟩] [⟨5, 10⟩]).find?
        (fun e => decide (e.date = 10)) = some ⟨.num 4, 10⟩ ∧
      JsNum.num 4 ≠ JsNum.num 2 := by
  refine ⟨?_, by decide⟩
  rw [crossRateExample_value]
  decide

/-- C10 counterexample: the oldest cached sample (date 5) is older than the
request's lower bound (10), yet the handler does not serve from the cache —
it falls through to the store query. -/
theorem C10_counterexample :
    priceInSatsCacheResponse [("ETH", [⟨1, 5⟩])] "ETH" (some 10) = none ∧
      (5 : ℤ) < 10 := by decide

/-- C10 (amended): with a truthy `startDate` and cached data present, the
`/priceInSats/:symbol` handler skips the store query and serves the
filtered cached sequence exactly when the oldest (first) cached sample is
strictly newer than the lower bound — `cachedResults[0].date > startDate` —
not when it is older. -/
theorem C10_cache_short_circuit (cache : CacheData) (symbol : String)
    (d : ℤ) (p0 : BtcPricePoint) (rest : List BtcPricePoint)
    (h : cacheGet cache symbol = some (p0 :: rest)) :
    priceInSatsCacheResponse cache symbol (some d) =
      if d < p0.date then
        some ((p0 :: rest).filter (fun price => decide (d < price.date)))
      else none := by
  unfold priceInSatsCacheResponse
  rw [h]

theorem C10_witness :
    priceInSatsCacheResponse [("ETH", [⟨7, 3⟩])] "ETH" (some 2) =
      if (2 : ℤ) < 3 then
        some (([⟨7, 3⟩] : List BtcPricePoint).filter
          (fun price => decide ((2 : ℤ) < price.date)))
      else none :=
  C10_cache_short_circuit [("ETH", [⟨7, 3⟩])] "ETH" 2 ⟨7, 3⟩ [] (by decide)

/-- C9 counterexample: after `get` hands out the reference to symbol
"ETH"'s array (contents `[⟨5, 10⟩]`), a later insert splices into that same
array, so the sequence already handed to the caller now reads
`[⟨7, 3⟩, ⟨5, 10⟩]` — the snapshot is retroactively changed. -/
theorem C9_counterexample :
    CacheRef.get (CacheRef.addPricePoint 0 "ETH" ⟨5, 10⟩ CacheRef.empty) "ETH" =
        some 0 ∧
      (CacheRef.addPricePoint 0 "ETH" ⟨5, 10⟩ CacheRef.empty).readArr 0 =
        [⟨5, 10⟩] ∧
      (CacheRef.addPricePoint 0 "ETH" ⟨7, 3⟩
          (CacheRef.addPricePoint 0 "ETH" ⟨5, 10⟩ CacheRef.empty)).readArr 0 =
        [⟨7, 3⟩, ⟨5, 10⟩] ∧
      ([⟨7, 3⟩, ⟨5, 10⟩] : List BtcPricePoint) ≠ [⟨5, 10⟩] := by decide

theorem cleanupStep_foldl_heap (srcHeap : List (List BtcPricePoint)) (now : ℤ) :
    ∀ (es : List (String × Nat)) (acc : CacheRef),
      ∃ ext, (es.foldl (cleanupStep srcHeap now) acc).heap = acc.heap ++ ext := by
  intro es
  induction es with
  | nil => exact fun acc => ⟨[], (List.append_nil _).symm⟩
  | cons e rest ih =>
    intro acc
    rw [List.foldl_cons]
    by_cases hf : ((srcHeap.getD e.2 []).filter (ttlKeep now)).isEmpty = true
    · have hstep : cleanupStep srcHeap now acc e = acc := by
        show (if ((srcHeap.getD e.2 []).filter (ttlKeep now)).isEmpty = true
            then acc else _) = acc
        rw [if_pos hf]
      rw [hstep]
      exact ih acc
    · have hstep : cleanupStep srcHeap now acc e =
          { entries := acc.entries ++ [(e.1, acc.heap.length)]
            heap := acc.heap ++ [(srcHeap.getD e.2 []).filter (ttlKeep now)] } := by
        show (if ((srcHeap.getD e.2 []).filter (ttlKeep now)).isEmpty = true
            then acc else _) = _
        rw [if_neg hf]
      rw [hstep]
      obtain ⟨ext, hext⟩ := ih
        { entries := acc.entries ++ [(e.1, acc.heap.length)]
          heap := acc.heap ++ [(srcHeap.getD e.2 []).filter (ttlKeep now)] }
      exact ⟨(srcHeap.getD e.2 []).filter (ttlKeep now) :: ext, by
        rw [hext, List.append_assoc, List.singleton_append]⟩

theorem mem_spliceAsc {prices : List BtcPricePoint} {p x : BtcPricePoint}
    (h : x ∈ spliceAsc prices p) : x = p ∨ x ∈ prices := by
  unfold spliceAsc at h
  rcases List.mem_append.1 h with h | h
  · exact Or.inr ((List.takeWhile_sublist _).subset h)
  · rcases List.mem_cons.1 h with h | h
    · exact Or.inl h
    · exact Or.inr ((List.dropWhile_sublist _).subset h)

theorem spliceAsc_ne_nil (prices : List BtcPricePoint) (p : BtcPricePoint) :
    spliceAsc prices p ≠ [] := by
  have hp : p ∈ spliceAsc prices p := by
    unfold spliceAsc
    exact List.mem_append.2 (Or.inr (List.mem_cons_self _ _))
  exact List.ne_nil_of_mem hp

theorem spliceAsc_pairwise :
    ∀ {prices : List BtcPricePoint} {p : BtcPricePoint},
      prices.Pairwise (fun x y => x.date < y.date) →
      (∀ q ∈ prices, q.date ≠ p.date) →
      (spliceAsc prices p).Pairwise (fun x y => x.date < y.date) := by
  intro prices
  induction prices with
  | nil => intro p _ _; simp [spliceAsc]
  | cons q rest ih =>
    intro p hp hnd
    rcases List.pairwise_cons.1 hp with ⟨hq, hrest⟩
    by_cases hlt : p.date < q.date
    · have hres : spliceAsc (q :: rest) p = p :: q :: rest := by
        unfold spliceAsc
        rw [List.takeWhile_cons_of_neg (by simp [hlt]),
          List.dropWhile_cons_of_neg (by simp [hlt])]
        rfl
      rw [hres]
      refine List.pairwise_cons.2 ⟨?_, hp⟩
      intro b hb
      rcases List.mem_cons.1 hb with rfl | hb
      · exact hlt
      · exact hlt.trans (hq b hb)
    · have hqp : q.date < p.date :=
        lt_of_le_of_ne (not_lt.1 hlt) (hnd q (List.mem_cons_self _ _))
      have hres : spliceAsc (q :: rest) p = q :: spliceAsc rest p := by
        unfold spliceAsc
        rw [List.takeWhile_cons_of_pos (by simp [hlt]),
          List.dropWhile_cons_of_pos (by simp [hlt])]
        rfl
      rw [hres]
      refine List.pairwise_cons.2
        ⟨?_, ih hrest (fun r hr => hnd r (List.mem_cons_of_mem _ hr))⟩
      intro b hb
      rcases mem_spliceAsc hb with rfl | hb
      · exact hqp
      · exact hq b hb

theorem cacheWF_add {cache : CacheData} {now : ℤ} {symbol : String}
    {price : BtcPricePoint} (h : CacheWF cache) :
    CacheWF (addPricePoint now symbol price cache) := by
  unfold addPricePoint
  split
  · exact h
  · split
    next hl =>
      intro e he
      rcases mem_mapSet he with he | rfl
      · exact h e he
      · exact ⟨by simp, by simp⟩
    next prices hl =>
      split
      · exact h
      next hfind =>
        have hwf := h _ (lookup_mem hl)
        have hnd : ∀ q ∈ prices, q.date ≠ price.date := by
          have hnone : prices.find? (fun p => decide (p.date = price.date)) = none :=
            Option.not_isSome_iff_eq_none.1 hfind
          intro q hq
          simpa using List.find?_eq_none.1 hnone q hq
        intro e he
        rcases mem_mapSet he with he | rfl
        · exact h e he
        · exact ⟨spliceAsc_ne_nil _ _, spliceAsc_pairwise hwf.2 hnd⟩

theorem cacheWF_cleanup {cache : CacheData} {now : ℤ} (h : CacheWF cache) :
    CacheWF (cleanup now cache) := by
  intro e he
  obtain ⟨a, ha, hae⟩ := List.mem_filterMap.1 he
  replace hae :
      (if (a.2.filter (ttlKeep now)).isEmpty = true then none
        else some (a.1, a.2.filter (ttlKeep now))) = some e := hae
  by_cases hf : (a.2.filter (ttlKeep now)).isEmpty = true
  · rw [if_pos hf] at hae
    cases hae
  · rw [if_neg hf] at hae
    cases hae
    refine ⟨?_, List.Pairwise.filter _ (h a ha).2⟩
    show a.2.filter (ttlKeep now) ≠ []
    intro hcon
    exact hf (List.isEmpty_iff.2 hcon)

theorem cacheWF_foldl :
    ∀ (ops : List CacheOp) (cache : CacheData),
      CacheWF cache → CacheWF (ops.foldl applyOp cache) := by
  intro ops
  induction ops with
  | nil => exact fun cache hc => hc
  | cons op rest ih =>
    intro cache hc
    rw [List.foldl_cons]
    refine ih _ ?_
    cases op with
    | add now symbol price => exact cacheWF_add hc
    | clean now => exact cacheWF_cleanup hc

/-- C7: after any sequence of inserts and cleanups starting from the empty
cache, every symbol present in the cache maps to a nonempty sequence in
strictly ascending timestamp order (hence duplicate-free); a symbol whose
sequence would be empty is removed rather than kept empty. -/
theorem C7_cache_get_sorted (ops : List CacheOp) (symbol : String)
    (l : List BtcPricePoint) (h : cacheGet (runOps ops) symbol = some l) :
    l ≠ [] ∧ l.Chain' (fun x y => x.date < y.date) := by
  have hwf : CacheWF (runOps ops) :=
    cacheWF_foldl ops [] (fun e he => absurd he (List.not_mem_nil e))
  rw [cacheGet] at h
  obtain ⟨hne, hpw⟩ := hwf _ (lookup_mem h)
  exact ⟨hne, hpw.chain'⟩

theorem C7_witness :
    ([⟨5, 10⟩] : List BtcPricePoint) ≠ [] ∧
      List.Chain' (fun x y : BtcPricePoint => x.date < y.date) [⟨5, 10⟩] :=
  C7_cache_get_sorted [.add 0 "ETH" ⟨5, 10⟩] "ETH" [⟨5, 10⟩] (by decide)

/-- C3 counterexample: two permutations of the same three-sample series
with pairwise-distinct timestamps give different `interpolatePrice` results
at target 5: `filter(...).pop()` picks the last listed sample below the
target, which is the latest one only when the input is sorted ascending. -/
theorem C3_counterexample :
    List.Perm ([⟨100, 0⟩, ⟨200, 2⟩, ⟨300, 10⟩] : List BtcPricePoint)
        [⟨200, 2⟩, ⟨100, 0⟩, ⟨300, 10⟩] ∧
      List.Pairwise (fun a b : BtcPricePoint => a.date ≠ b.date)
        [⟨100, 0⟩, ⟨200, 2⟩, ⟨300, 10⟩] ∧
      interpolatePrice [⟨100, 0⟩, ⟨200, 2⟩, ⟨300, 10⟩] 5 ≠
        interpolatePrice [⟨200, 2⟩, ⟨100, 0⟩, ⟨300, 10⟩] 5 := by
  refine ⟨List.Perm.swap _ _ _, by decide, ?_⟩
  have h1 : interpolatePrice [⟨100, 0⟩, ⟨200, 2⟩, ⟨300, 10⟩] 5 = some (475 / 2) := by
    norm_num [interpolatePrice, List.find?, List.filter]
  have h2 : interpolatePrice [⟨200, 2⟩, ⟨100, 0⟩, ⟨300, 10⟩] 5 = some 200 := by
    norm_num [interpolatePrice, List.find?, List.filter]
  rw [h1, h2]
  intro hcon
  rw [Option.some.injEq] at hcon
  norm_num at hcon

/-- C3 (amended): `estimateAt` is not invariant under arbitrary
permutations of the series; its result is determined by the exact-match
lookup, the last *listed* sample dated before the target, and the first
*listed* sample dated after it, so only reorderings preserving those three
agree — ascending timestamp order makes them the latest-before and
earliest-after samples. -/
theorem C3_interpolate_determined_by_neighbours
    (s₁ s₂ : List BtcPricePoint) (t : ℤ)
    (hexact : s₁.find? (fun d => decide (d.date = t)) =
      s₂.find? (fun d => decide (d.date = t)))
    (hbefore : (s₁.filter (fun d => decide (d.date < t))).getLast? =
      (s₂.filter (fun d => decide (d.date < t))).getLast?)
    (hafter : s₁.find? (fun d => decide (t < d.date)) =
      s₂.find? (fun d => decide (t < d.date))) :
    interpolatePrice s₁ t = interpolatePrice s₂ t := by
  unfold interpolatePrice
  rw [hexact, hbefore, hafter]

theorem C3_witness :
    interpolatePrice [⟨100, 0⟩, ⟨300, 10⟩] 5 =
      interpolatePrice [⟨300, 10⟩, ⟨100, 0⟩] 5 :=
  C3_interpolate_determined_by_neighbours [⟨100, 0⟩, ⟨300, 10⟩]
    [⟨300, 10⟩, ⟨100, 0⟩] 5 (by decide) (by decide) (by decide)

/-- C9 (amended): `get` returns a live reference, not a snapshot — a later
insert can retroactively change the handed-out sequence (see the
counterexample) — but `cleanup` never does: it only allocates new arrays
(`filter`) and rebinds the map, leaving every pre-existing array object
byte-for-byte intact. -/
theorem C9_cleanup_preserves_snapshots (now : ℤ) (s : CacheRef) :
    (CacheRef.cleanup now s).heap.take s.heap.length = s.heap := by
  unfold CacheRef.cleanup
  obtain ⟨ext, hext⟩ :=
    cleanupStep_foldl_heap s.heap now s.entries { entries := [], heap := s.heap }
  rw [show ({ entries := [], heap := s.heap } : CacheRef).heap = s.heap from rfl] at hext
  rw [hext, List.take_left]
